import Mathlib

/-!
Verification development for the `macos.softwareupdate` Ansible collection.

Each Python module of the collection is shallowly embedded as executable Lean
definitions, and the documented behaviour is stated and proved (or refuted)
as theorems over those definitions.

Embedded modules:
* `softwareupdate_list_installers.py` — version parsing/ordering, the
  installer-listing line parser, and the latest-per-major-version reduction.
* `softwareupdate_auto_settings.py` — the `defaults`-backed preference
  reconciler (`read_default` / `write_default` / the `main` loop).
* `softwareupdate_install.py` and `softwareupdate_osinstall.py` — the
  launch-command construction and the log-polling confirmation loop.
-/

namespace SoftwareUpdate

/-! ## Version parsing (`parse_version` in `softwareupdate_list_installers.py`)

`parse_version` is
`tuple(int(part) for part in version_str.split('.') if part.isdigit())`.
We embed Python's `str.split('.')` as `splitDots` over the character list,
`str.isdigit` as an all-ASCII-digits check, and `int` on a digit string as
`digitsToNat`. -/

/-- Python's `str.isdigit` on a single character (ASCII digits). -/
def isPyDigit (c : Char) : Bool := '0' ≤ c && c ≤ '9'

/-- Python's `s.split('.')`: split at every `'.'`, keeping empty pieces
(`"".split('.') == ['']`, `"a..b".split('.') == ['a','','b']`). -/
def splitDots : List Char → List (List Char)
  | [] => [[]]
  | c :: rest =>
    if c = '.' then [] :: splitDots rest
    else
      match splitDots rest with
      | [] => [[c]]
      | t :: ts => (c :: t) :: ts

/-- Python's `int` applied to a non-empty string of ASCII digits. -/
def digitsToNat (part : List Char) : Nat :=
  part.foldl (fun n c => n * 10 + (c.toNat - 48)) 0

/-- Python's `part.isdigit()`: non-empty and every character a digit. -/
def isDigits (part : List Char) : Bool :=
  !part.isEmpty && part.all isPyDigit

/-- `parse_version` on a character list:
`tuple(int(part) for part in version_str.split('.') if part.isdigit())`. -/
def parseVersionL (s : List Char) : List Nat :=
  (splitDots s).filterMap fun part =>
    if isDigits part then some (digitsToNat part) else none

/-- `parse_version(version_str)` from `softwareupdate_list_installers.py`. -/
def parse_version (s : String) : List Nat := parseVersionL s.data

/-! ## Version ordering

The module compares parsed versions with Python's tuple comparison
(`parse_version(a) > parse_version(b)` and `sorted(key=parse_version)`):
lexicographic, with a proper prefix strictly smaller than the longer tuple. -/

/-- Python tuple comparison on integer tuples: lexicographic by first
difference, and a shorter tuple that is a proper prefix of the longer one
is strictly smaller. -/
def tupleCompare : List Nat → List Nat → Ordering
  | [], [] => .eq
  | [], _ :: _ => .lt
  | _ :: _, [] => .gt
  | a :: as, b :: bs =>
    if a < b then .lt else if b < a then .gt else tupleCompare as bs

/-- `parse_version(x) > parse_version(y)` as used in the latest-only
reduction. -/
def versionGt (x y : String) : Bool :=
  tupleCompare (parse_version x) (parse_version y) == .gt

theorem splitDots_ne_nil (s : List Char) : splitDots s ≠ [] := by
  cases s with
  | nil => simp [splitDots]
  | cons c rest =>
    simp only [splitDots]
    split
    · simp
    · split <;> simp

theorem splitDots_append (xs ys : List Char) :
    splitDots (xs ++ '.' :: ys) = splitDots xs ++ splitDots ys := by
  induction xs with
  | nil => simp [splitDots]
  | cons c rest ih =>
    obtain ⟨t, ts, hrest⟩ := List.exists_cons_of_ne_nil (splitDots_ne_nil rest)
    by_cases hc : c = '.'
    · subst hc
      show splitDots ('.' :: (rest ++ '.' :: ys)) = splitDots ('.' :: rest) ++ splitDots ys
      rw [splitDots, splitDots, if_pos rfl, if_pos rfl, ih]
      rfl
    · show splitDots (c :: (rest ++ '.' :: ys)) = splitDots (c :: rest) ++ splitDots ys
      rw [splitDots, splitDots, if_neg hc, if_neg hc, ih, hrest]
      rfl

theorem parseVersionL_append (xs ys : List Char) :
    parseVersionL (xs ++ '.' :: ys) = parseVersionL xs ++ parseVersionL ys := by
  unfold parseVersionL
  rw [splitDots_append, List.filterMap_append]

/-- **C8.** `parse_version` splits the input on `'.'` and keeps exactly the
components made of digits, filtering each component individually rather than
truncating at the first non-numeric one; a fully malformed input such as
`"abc"` yields the empty sequence. -/
theorem parse_version_filters_components_individually :
    parse_version "abc" = [] ∧
    parse_version "14.x.2" = [14, 2] ∧
    parse_version "15.1.1" = [15, 1, 1] ∧
    (∀ xs ys : List Char,
      parseVersionL (xs ++ '.' :: ys) = parseVersionL xs ++ parseVersionL ys) :=
  ⟨by decide, by decide, by decide, parseVersionL_append⟩

/-- **C2 counterexample.** The claim states `compare("14", "14.0") = equal`,
but the implementation compares Python tuples, for which `(14,) < (14, 0)`:
the comparison yields *less*, not *equal*. -/
theorem compare_14_vs_14_0_is_lt_not_eq :
    tupleCompare (parse_version "14") (parse_version "14.0") = Ordering.lt ∧
    tupleCompare (parse_version "14") (parse_version "14.0") ≠ Ordering.eq := by
  constructor <;> decide

theorem tupleCompare_self (as : List Nat) : tupleCompare as as = .eq := by
  induction as with
  | nil => rfl
  | cons a as ih => simp [tupleCompare, ih]

theorem tupleCompare_append_zero (as : List Nat) :
    tupleCompare as (as ++ [0]) = .lt := by
  induction as with
  | nil => rfl
  | cons a as ih => simp [tupleCompare, ih]

/-- **C2 amended.** Version comparison is Python tuple comparison on the
parsed integer sequences: element-wise up to the shorter length, and the
longer sequence is strictly greater whenever the shorter is a proper prefix,
*even when the extra elements are all zero*. Hence
`compare("14", "14.0") = less` (not equal), while
`compare("15.1", "15.1.1") = less` and `compare("15.2", "15.1.9") = greater`
as stated. -/
theorem tupleCompare_prefix_lt_and_examples :
    (∀ as : List Nat, tupleCompare as as = Ordering.eq) ∧
    (∀ as : List Nat, tupleCompare as (as ++ [0]) = Ordering.lt) ∧
    tupleCompare (parse_version "14") (parse_version "14.0") = Ordering.lt ∧
    tupleCompare (parse_version "15.1") (parse_version "15.1.1") = Ordering.lt ∧
    tupleCompare (parse_version "15.2") (parse_version "15.1.9") = Ordering.gt :=
  ⟨tupleCompare_self, tupleCompare_append_zero, by decide, by decide, by decide⟩

/-! ## Preference reconciler (`softwareupdate_auto_settings.py`)

The preference store (`defaults`) is modelled as a function from
(domain, key) to the raw `defaults read` output (`none` when the key is
absent or the read fails).  A `StoreState` additionally carries the list of
writes actually issued, so "never invokes the write primitive" is a
statement about the final state.  `defaults write ... -bool true/false`
stores a value that `defaults read` later prints as "1"/"0".
A failure oracle `fails` says which `defaults write` invocations raise
`CalledProcessError`. -/

namespace AutoSettings

/-- One desired-state entry `(domain, key, value)` of the `changes` list. -/
structure WriteOp where
  domain : String
  key : String
  value : Bool
  deriving DecidableEq, Repr

/-- The preference store plus the log of writes actually issued. -/
structure StoreState where
  store : String × String → Option String
  writes : List WriteOp

/-- `read_default(domain, key)`: output "1" is `True`, "0" is `False`,
anything else (including an absent key or a failing read) is `None`. -/
def read_default (s : String × String → Option String) (domain key : String) :
    Option Bool :=
  match s (domain, key) with
  | some "1" => some true
  | some "0" => some false
  | _ => none

/-- The store after `defaults write domain key -bool value` (a later
`defaults read` prints "1" or "0"), with the write appended to the log. -/
def writtenState (st : StoreState) (domain key : String) (value_bool : Bool) :
    StoreState :=
  { store := fun p =>
      if p = (domain, key) then some (if value_bool then "1" else "0")
      else st.store p,
    writes := st.writes ++ [⟨domain, key, value_bool⟩] }

/-- `write_default(domain, key, value_bool, check_mode)`: reads the current
value; returns `False` (no write) when it already equals the desired value;
otherwise issues a `defaults write` unless in check mode, and returns `True`.
`none` models the `CalledProcessError` escaping from `defaults write`. -/
def write_default (fails : String → String → Bool) (st : StoreState)
    (domain key : String) (value_bool : Bool) (check_mode : Bool) :
    Option (Bool × StoreState) :=
  let current_value := read_default st.store domain key
  if current_value = some value_bool then
    some (false, st)
  else if check_mode then
    some (true, st)
  else if fails domain key then
    none
  else
    some (true, writtenState st domain key value_bool)

/-- Outcome of the `main` loop over `changes`: normal exit with the final
`changed` flag, or the `fail_json` taken when a write raises. -/
inductive RunOutcome where
  | ok (changed : Bool)
  | failed (domain key : String)
  deriving DecidableEq, Repr

def RunOutcome.isOk : RunOutcome → Bool
  | .ok _ => true
  | .failed _ _ => false

/-- The `for domain, key, value in changes` loop of `main`, threading the
`changed` accumulator; the first write failure aborts with `fail_json`. -/
def reconcileFrom (fails : String → String → Bool) (check_mode : Bool) :
    StoreState → Bool → List WriteOp → StoreState × RunOutcome
  | st, changed, [] => (st, .ok changed)
  | st, changed, e :: rest =>
    match write_default fails st e.domain e.key e.value check_mode with
    | none => (st, .failed e.domain e.key)
    | some (w, st') => reconcileFrom fails check_mode st' (changed || w) rest

/-- One reconciliation run of `main`, starting from `changed = False`. -/
def reconcile (fails : String → String → Bool) (st : StoreState)
    (entries : List WriteOp) (check_mode : Bool) : StoreState × RunOutcome :=
  reconcileFrom fails check_mode st false entries

/-- Keys of two entries differ (as (domain, key) addressing pairs). -/
def KeysDiffer (a b : WriteOp) : Prop := (a.domain, a.key) ≠ (b.domain, b.key)

instance : DecidableRel KeysDiffer := fun a b => by
  unfold KeysDiffer; infer_instance

theorem write_default_noop (fails : String → String → Bool) (st : StoreState)
    (domain key : String) (value_bool check_mode : Bool)
    (h : read_default st.store domain key = some value_bool) :
    write_default fails st domain key value_bool check_mode
      = some (false, st) := by
  unfold write_default
  rw [if_pos h]

theorem write_default_dry (fails : String → String → Bool) (st : StoreState)
    (domain key : String) (value_bool : Bool)
    (h : read_default st.store domain key ≠ some value_bool) :
    write_default fails st domain key value_bool true = some (true, st) := by
  unfold write_default
  rw [if_neg h]
  rfl

theorem write_default_err (fails : String → String → Bool) (st : StoreState)
    (domain key : String) (value_bool : Bool)
    (h : read_default st.store domain key ≠ some value_bool)
    (hf : fails domain key = true) :
    write_default fails st domain key value_bool false = none := by
  unfold write_default
  simp [h, hf]

theorem write_default_write (fails : String → String → Bool) (st : StoreState)
    (domain key : String) (value_bool : Bool)
    (h : read_default st.store domain key ≠ some value_bool)
    (hf : fails domain key = false) :
    write_default fails st domain key value_bool false
      = some (true, writtenState st domain key value_bool) := by
  unfold write_default
  simp [h, hf]

theorem write_default_store_pres {fails : String → String → Bool}
    {st : StoreState} {d0 k0 : String} {v cm w : Bool} {st' : StoreState}
    (hw : write_default fails st d0 k0 v cm = some (w, st'))
    {d k : String} (hne : (d, k) ≠ (d0, k0)) :
    st'.store (d, k) = st.store (d, k) := by
  by_cases hcur : read_default st.store d0 k0 = some v
  · rw [write_default_noop fails st d0 k0 v cm hcur] at hw
    injection hw with hw
    injection hw with hw1 hw2
    rw [← hw2]
  · cases cm with
    | true =>
      rw [write_default_dry fails st d0 k0 v hcur] at hw
      injection hw with hw
      injection hw with hw1 hw2
      rw [← hw2]
    | false =>
      by_cases hf : fails d0 k0 = true
      · rw [write_default_err fails st d0 k0 v hcur hf] at hw
        exact Option.noConfusion hw
      · rw [write_default_write fails st d0 k0 v hcur
          (Bool.eq_false_iff.mpr hf)] at hw
        injection hw with hw
        injection hw with hw1 hw2
        rw [← hw2]
        simp [writtenState, hne]

theorem write_default_some_read {fails : String → String → Bool}
    {st : StoreState} {d0 k0 : String} {v w : Bool} {st' : StoreState}
    (hw : write_default fails st d0 k0 v false = some (w, st')) :
    read_default st'.store d0 k0 = some v := by
  by_cases hcur : read_default st.store d0 k0 = some v
  · rw [write_default_noop fails st d0 k0 v false hcur] at hw
    injection hw with hw
    injection hw with hw1 hw2
    rw [← hw2]
    exact hcur
  · by_cases hf : fails d0 k0 = true
    · rw [write_default_err fails st d0 k0 v hcur hf] at hw
      exact Option.noConfusion hw
    · rw [write_default_write fails st d0 k0 v hcur
        (Bool.eq_false_iff.mpr hf)] at hw
      injection hw with hw
      injection hw with hw1 hw2
      rw [← hw2]
      unfold read_default writtenState
      simp only [if_pos rfl]
      cases v <;> rfl

theorem reconcileFrom_store_eq_of_not_mem (fails : String → String → Bool)
    (check_mode : Bool) (entries : List WriteOp) :
    ∀ (st : StoreState) (changed : Bool) (d k : String),
      (∀ e ∈ entries, (d, k) ≠ (e.domain, e.key)) →
      ((reconcileFrom fails check_mode st changed entries).1).store (d, k)
        = st.store (d, k) := by
  induction entries with
  | nil => intro st changed d k _; rfl
  | cons e rest ih =>
    intro st changed d k h
    have hrest : ∀ x ∈ rest, (d, k) ≠ (x.domain, x.key) :=
      fun x hx => h x (List.mem_cons_of_mem e hx)
    simp only [reconcileFrom]
    cases hw : write_default fails st e.domain e.key e.value check_mode with
    | none => rfl
    | some p =>
      obtain ⟨w, st'⟩ := p
      have hpres : st'.store (d, k) = st.store (d, k) :=
        write_default_store_pres hw (h e (List.mem_cons_self e rest))
      rw [ih st' (changed || w) d k hrest, hpres]

theorem reconcileFrom_ok_read (fails : String → String → Bool)
    (entries : List WriteOp) :
    ∀ (st : StoreState) (changed : Bool),
      entries.Pairwise KeysDiffer →
      ((reconcileFrom fails false st changed entries).2).isOk = true →
      ∀ e ∈ entries,
        read_default ((reconcileFrom fails false st changed entries).1).store
          e.domain e.key = some e.value := by
  induction entries with
  | nil => intro st changed _ _ x hx; cases hx
  | cons e rest ih =>
    intro st changed hpw hok x hx
    obtain ⟨hhead, htail⟩ := List.pairwise_cons.mp hpw
    simp only [reconcileFrom] at hok ⊢
    cases hw : write_default fails st e.domain e.key e.value false with
    | none =>
      rw [hw] at hok
      simp [RunOutcome.isOk] at hok
    | some p =>
      obtain ⟨w, st'⟩ := p
      simp only [hw] at hok ⊢
      rcases List.mem_cons.mp hx with hxe | hxr
      · subst hxe
        have hread : read_default st'.store x.domain x.key = some x.value :=
          write_default_some_read hw
        have hpres := reconcileFrom_store_eq_of_not_mem fails false rest st'
          (changed || w) x.domain x.key (fun y hy => hhead y hy)
        unfold read_default at hread ⊢
        rw [hpres]
        exact hread
      · exact ih st' (changed || w) htail hok x hxr

theorem reconcileFrom_no_drift (fails : String → String → Bool)
    (check_mode : Bool) (entries : List WriteOp) :
    ∀ (st : StoreState) (changed : Bool),
      (∀ e ∈ entries, read_default st.store e.domain e.key = some e.value) →
      reconcileFrom fails check_mode st changed entries = (st, .ok changed) := by
  induction entries with
  | nil => intro st changed _; rfl
  | cons e rest ih =>
    intro st changed h
    simp only [reconcileFrom,
      write_default_noop fails st e.domain e.key e.value check_mode
        (h e (List.mem_cons_self e rest))]
    simpa using ih st (changed || false)
      (fun x hx => h x (List.mem_cons_of_mem e hx))

/-- **C5.** The reconciler is idempotent: if a non-dry-run reconciliation of
entries with pairwise distinct (domain, key) addresses completes without a
write failure, then re-running reconciliation from the resulting store with
the same desired state (under any write-failure oracle) performs no write at
all and reports `changed = false`; each write is issued only when the
current stored value differs from the desired value. -/
theorem reconcile_idempotent (fails fails' : String → String → Bool)
    (st : StoreState) (entries : List WriteOp)
    (hpw : entries.Pairwise KeysDiffer)
    (hok : ((reconcile fails st entries false).2).isOk = true) :
    reconcile fails' ((reconcile fails st entries false).1) entries false
      = ((reconcile fails st entries false).1, .ok false) := by
  apply reconcileFrom_no_drift
  intro e he
  exact reconcileFrom_ok_read fails entries st false hpw hok e he

/-- **C5 witness.** A concrete two-entry run (drift on both keys) after
which a second run reports no change and leaves the store alone. -/
theorem reconcile_idempotent_witness :
    reconcile (fun _ _ => false)
      ((reconcile (fun _ _ => false) ⟨fun _ => none, []⟩
        [⟨"/Library/Preferences/com.apple.SoftwareUpdate", "AutomaticCheckEnabled", true⟩,
         ⟨"/Library/Preferences/com.apple.commerce", "AutoUpdate", false⟩] false).1)
      [⟨"/Library/Preferences/com.apple.SoftwareUpdate", "AutomaticCheckEnabled", true⟩,
       ⟨"/Library/Preferences/com.apple.commerce", "AutoUpdate", false⟩] false
      = ((reconcile (fun _ _ => false) ⟨fun _ => none, []⟩
        [⟨"/Library/Preferences/com.apple.SoftwareUpdate", "AutomaticCheckEnabled", true⟩,
         ⟨"/Library/Preferences/com.apple.commerce", "AutoUpdate", false⟩] false).1,
        .ok false) :=
  reconcile_idempotent (fun _ _ => false) (fun _ _ => false) ⟨fun _ => none, []⟩
    [⟨"/Library/Preferences/com.apple.SoftwareUpdate", "AutomaticCheckEnabled", true⟩,
     ⟨"/Library/Preferences/com.apple.commerce", "AutoUpdate", false⟩]
    (by decide) (by decide)

theorem reconcileFrom_append (fails : String → String → Bool)
    (check_mode : Bool) (xs ys : List WriteOp) :
    ∀ (st : StoreState) (changed : Bool),
      reconcileFrom fails check_mode st changed (xs ++ ys)
        = match reconcileFrom fails check_mode st changed xs with
          | (st', .ok c) => reconcileFrom fails check_mode st' c ys
          | (st', .failed d k) => (st', .failed d k) := by
  induction xs with
  | nil => intro st changed; rfl
  | cons e rest ih =>
    intro st changed
    simp only [List.cons_append, reconcileFrom]
    cases hw : write_default fails st e.domain e.key e.value check_mode with
    | none => rfl
    | some p =>
      obtain ⟨w, st'⟩ := p
      exact ih st' (changed || w)

/-- **C6.** A write failure aborts the whole reconciliation immediately:
with `entries = pre ++ e :: post`, if the run over `pre` succeeds and the
write for `e` fails, the run over the full list stops in the state reached
after `pre` (entries already applied remain applied, with no rollback), and
the result is the same for every `post` (entries after the failing one are
never attempted); entries are processed strictly in list order. -/
theorem reconcile_aborts_on_write_failure (fails : String → String → Bool)
    (st : StoreState) (pre : List WriteOp) (e : WriteOp) (post : List WriteOp)
    (c : Bool)
    (h1 : (reconcile fails st pre false).2 = .ok c)
    (h2 : write_default fails ((reconcile fails st pre false).1)
      e.domain e.key e.value false = none) :
    reconcile fails st (pre ++ e :: post) false
      = ((reconcile fails st pre false).1, .failed e.domain e.key) := by
  have hpre : reconcileFrom fails false st false pre
      = ((reconcile fails st pre false).1, RunOutcome.ok c) := by
    rw [← h1]
    rfl
  unfold reconcile
  rw [reconcileFrom_append, hpre]
  simp only [reconcileFrom, h2]

/-- **C6 witness.** One applied entry, then a failing write: the run stops
with the first entry applied and reports the failing (domain, key), without
touching the entry after it. -/
theorem reconcile_aborts_on_write_failure_witness :
    reconcile (fun _ k => k == "B") ⟨fun _ => none, []⟩
      ([⟨"D", "A", true⟩] ++ ⟨"D", "B", true⟩ :: [⟨"D", "C", true⟩]) false
      = ((reconcile (fun _ k => k == "B") ⟨fun _ => none, []⟩
          [⟨"D", "A", true⟩] false).1, .failed "D" "B") :=
  reconcile_aborts_on_write_failure (fun _ k => k == "B") ⟨fun _ => none, []⟩
    [⟨"D", "A", true⟩] ⟨"D", "B", true⟩ [⟨"D", "C", true⟩] true
    (by decide) (by rfl)

theorem reconcileFrom_dry_run (fails : String → String → Bool)
    (st : StoreState) (entries : List WriteOp) :
    ∀ changed : Bool,
      reconcileFrom fails true st changed entries
        = (st, .ok (changed || entries.any fun e =>
            !(read_default st.store e.domain e.key == some e.value))) := by
  induction entries with
  | nil => intro changed; simp [reconcileFrom]
  | cons e rest ih =>
    intro changed
    simp only [reconcileFrom]
    by_cases hcur : read_default st.store e.domain e.key = some e.value
    · simp only [write_default_noop fails st e.domain e.key e.value true hcur]
      rw [ih (changed || false)]
      simp [hcur]
    · simp only [write_default_dry fails st e.domain e.key e.value hcur]
      rw [ih (changed || true)]
      simp [beq_iff_eq, hcur]

/-- **C7.** In check (dry-run) mode the reconciler never invokes the write
primitive: the final state is exactly the initial one (same store, same
write log), no write failure can occur, and `changed` is reported true iff
at least one entry's current value differs from the desired value. -/
theorem reconcile_dry_run_frame (fails : String → String → Bool)
    (st : StoreState) (entries : List WriteOp) :
    reconcile fails st entries true
      = (st, .ok (entries.any fun e =>
          !(read_default st.store e.domain e.key == some e.value))) := by
  unfold reconcile
  rw [reconcileFrom_dry_run]
  simp

end AutoSettings

/-! ## Launch-confirmation polling (`check_log_for_progress` in
`softwareupdate_install.py` and `softwareupdate_osinstall.py`)

The loop polls while `time.time() - start_time < timeout`, sleeping
`interval` between ticks; we take the standard discrete-time abstraction in
which tick `k` happens at elapsed time `k * interval`.  A tick's view of the
log file is: missing (`os.path.exists` false), a swallowed read error, or
the file's content; the progress-marker regex search is an abstract
predicate on the content, configured per module (`Downloading: \d+\.\d+%`
versus `Preparing: \d+\.\d+%`). -/

namespace Polling

/-- What one poll tick sees of the log file. -/
inductive LogRead where
  | missing
  | readError
  | content (text : String)

/-- A tick observes progress iff the log exists, reads successfully, and the
progress-marker pattern matches the content; a missing file or a read error
is "no progress yet". -/
def tickObserves (pat : String → Bool) : LogRead → Bool
  | .missing => false
  | .readError => false
  | .content text => pat text

/-- The `while` loop of `check_log_for_progress`, over the remaining number
of ticks; `k` is the index of the current tick. -/
def pollTicks (pat : String → Bool) (logAt : Nat → LogRead) :
    Nat → Nat → Bool
  | 0, _ => false
  | fuel + 1, k =>
    if tickObserves pat (logAt k) then true
    else pollTicks pat logAt fuel (k + 1)

/-- Number of loop iterations: the ticks `k` with `k * interval < timeout`
(the loop guard `time.time() - start_time < timeout`). -/
def numTicks (timeout interval : Nat) : Nat :=
  (timeout + interval - 1) / interval

/-- `check_log_for_progress(log_path, timeout, interval)`. -/
def check_log_for_progress (pat : String → Bool) (logAt : Nat → LogRead)
    (timeout interval : Nat) : Bool :=
  pollTicks pat logAt (numTicks timeout interval) 0

theorem lt_numTicks_iff {timeout interval k : Nat} (hi : 0 < interval) :
    k < numTicks timeout interval ↔ k * interval < timeout := by
  unfold numTicks
  rw [Nat.lt_iff_add_one_le, Nat.le_div_iff_mul_le hi, Nat.succ_mul]
  omega

theorem pollTicks_eq_true_iff (pat : String → Bool) (logAt : Nat → LogRead) :
    ∀ fuel k, pollTicks pat logAt fuel k = true ↔
      ∃ j, j < fuel ∧ tickObserves pat (logAt (k + j)) = true := by
  intro fuel
  induction fuel with
  | zero => intro k; simp [pollTicks]
  | succ n ih =>
    intro k
    by_cases h : tickObserves pat (logAt k) = true
    · simp only [pollTicks, if_pos h]
      constructor
      · intro _
        exact ⟨0, Nat.succ_pos n, by simpa using h⟩
      · intro _; trivial
    · simp only [pollTicks, if_neg h, ih (k + 1)]
      constructor
      · rintro ⟨j, hj, hobs⟩
        exact ⟨j + 1, Nat.succ_lt_succ hj, by
          have : k + 1 + j = k + (j + 1) := by omega
          rwa [this] at hobs⟩
      · rintro ⟨j, hj, hobs⟩
        cases j with
        | zero => exact absurd (by simpa using hobs) h
        | succ m =>
          exact ⟨m, Nat.lt_of_succ_lt_succ hj, by
            have : k + (m + 1) = k + 1 + m := by omega
            rwa [this] at hobs⟩

/-- **C9.** The confirmation poll loop is a bounded wait: it returns
confirmed (`true`) iff the progress-marker pattern is observed at some poll
tick that happens before the timeout elapses, and otherwise returns `false`
once the elapsed time reaches the timeout; a missing log file or a read
error at a tick observes nothing and polling simply continues. -/
theorem check_log_for_progress_spec (pat : String → Bool)
    (logAt : Nat → LogRead) (timeout interval : Nat) (hi : 0 < interval) :
    (check_log_for_progress pat logAt timeout interval = true ↔
      ∃ k, k * interval < timeout ∧ tickObserves pat (logAt k) = true) ∧
    tickObserves pat LogRead.missing = false ∧
    tickObserves pat LogRead.readError = false := by
  refine ⟨?_, rfl, rfl⟩
  unfold check_log_for_progress
  rw [pollTicks_eq_true_iff]
  constructor
  · rintro ⟨j, hj, hobs⟩
    exact ⟨j, (lt_numTicks_iff hi).mp hj, by simpa using hobs⟩
  · rintro ⟨k, hk, hobs⟩
    exact ⟨k, (lt_numTicks_iff hi).mpr hk, by simpa using hobs⟩

/-- **C9 witness.** The spec's calibration example: interval 1, timeout 5,
a log that is missing for the first two ticks and then carries the marker:
polling confirms; and with a log that never gains the marker it does not. -/
theorem check_log_for_progress_spec_witness :
    ((check_log_for_progress (fun s => s == "Downloading: 40.5%")
        (fun k => if k < 2 then LogRead.missing
                  else LogRead.content "Downloading: 40.5%") 5 1 = true ↔
      ∃ k, k * 1 < 5 ∧
        tickObserves (fun s => s == "Downloading: 40.5%")
          ((fun k => if k < 2 then LogRead.missing
                     else LogRead.content "Downloading: 40.5%") k) = true) ∧
      tickObserves (fun s => s == "Downloading: 40.5%") LogRead.missing
        = false ∧
      tickObserves (fun s => s == "Downloading: 40.5%") LogRead.readError
        = false) :=
  check_log_for_progress_spec (fun s => s == "Downloading: 40.5%")
    (fun k => if k < 2 then LogRead.missing
              else LogRead.content "Downloading: 40.5%") 5 1 (by decide)

end Polling

/-! ## Launch-command construction (`main` in `softwareupdate_install.py`
line 130 and `softwareupdate_osinstall.py` lines 189–192)

Both modules build a shell command string with the password interpolated
into it: `echo '{password}' | nohup ... --stdinpass ... > log 2>&1 &`.
`softwareupdate_install.py` passes the whole string to
`subprocess.check_call(cmd, shell=True)`; `softwareupdate_osinstall.py`
passes the argument vector `["sh", "-c", cmd]`. -/

namespace Launch

def install_log_path : String := "/tmp/softwareupdate_install.log"

def osinstall_log_path : String := "/tmp/startosinstall.log"

/-- The `cmd` string of `softwareupdate_install.py` `main` (the
`"echo '{password}' | nohup softwareupdate ..."` format). -/
def installCmd (label username password : String) : String :=
  "echo '" ++ password ++
  "' | nohup softwareupdate --install \"" ++ label ++
  "\" --agree-to-license --verbose --no-scan --restart --stdinpass --user \"" ++
  username ++ "\" > " ++ install_log_path ++ " 2>&1 &"

/-- The `INSTALLERS` major-version-to-installer-name table of
`softwareupdate_osinstall.py`. -/
def INSTALLERS (version : Int) : Option String :=
  if version = 13 then some "Install macOS Ventura.app"
  else if version = 14 then some "Install macOS Sonoma.app"
  else if version = 15 then some "Install macOS 15.app"
  else none

/-- `installer_path = f"/Applications/{installer_app}/Contents/Resources/startosinstall"`. -/
def installerPath (installer_app : String) : String :=
  "/Applications/" ++ installer_app ++ "/Contents/Resources/startosinstall"

/-- The shell string inside the `cmd` list of `softwareupdate_osinstall.py`
`main`. -/
def osinstallShellCmd (installer_path username password : String) : String :=
  "echo '" ++ password ++
  "' | nohup '" ++ installer_path ++
  "' --agreetolicense --forcequitapps --nointeraction --user '" ++
  username ++ "' --stdinpass > '" ++ osinstall_log_path ++ "' 2>&1 &"

/-- The `cmd` argument vector of `softwareupdate_osinstall.py` `main`. -/
def osinstallCmd (installer_path username password : String) : List String :=
  ["sh", "-c", osinstallShellCmd installer_path username password]

/-- **C1 counterexample.** Two runs differing only in the password do *not*
produce the same command string / argument vector: the password is
interpolated into the constructed shell command in both launch modules. -/
theorem password_changes_constructed_command :
    installCmd "macOS Sonoma 14.7.2-23H311" "admin" "hunter2"
      ≠ installCmd "macOS Sonoma 14.7.2-23H311" "admin" "hunter3" ∧
    osinstallCmd (installerPath "Install macOS Sonoma.app") "admin" "hunter2"
      ≠ osinstallCmd (installerPath "Install macOS Sonoma.app") "admin"
          "hunter3" := by
  constructor <;> decide

/-- Everything of the install command after the interpolated secret;
contains no password. -/
def installCmdAfterSecret (label username : String) : String :=
  "' | nohup softwareupdate --install \"" ++ label ++
  "\" --agree-to-license --verbose --no-scan --restart --stdinpass --user \"" ++
  username ++ "\" > " ++ install_log_path ++ " 2>&1 &"

/-- Everything of the osinstall shell string after the interpolated secret;
contains no password. -/
def osinstallCmdAfterSecret (installer_path username : String) : String :=
  "' | nohup '" ++ installer_path ++
  "' --agreetolicense --forcequitapps --nointeraction --user '" ++
  username ++ "' --stdinpass > '" ++ osinstall_log_path ++ "' 2>&1 &"

/-- **C1 amended.** In both launch invocations the password *is* placed in
the constructed shell command string: the command is exactly
`echo '<password><password-free remainder>`, where the remainder (an `echo`
pipe into the installer with `--stdinpass`, redirected to the log file) is
built from the label/installer path and username only.  The secret thus
reaches the child through its stdin via the `echo` pipe, but it also appears
verbatim, single-quoted, in the command string handed to the shell, so runs
differing only in the password produce command strings differing in the
embedded secret. -/
theorem password_interpolated_into_shell_command :
    (∀ label username password : String,
      installCmd label username password
        = "echo '" ++ password ++ installCmdAfterSecret label username) ∧
    (∀ installer_path username password : String,
      osinstallCmd installer_path username password
        = ["sh", "-c",
            "echo '" ++ password
              ++ osinstallCmdAfterSecret installer_path username]) := by
  constructor
  · intro label username password
    unfold installCmd installCmdAfterSecret
    simp only [String.append_assoc]
  · intro installer_path username password
    unfold osinstallCmd osinstallShellCmd osinstallCmdAfterSecret
    simp only [String.append_assoc]

end Launch

/-! ## Installer-listing parser (`softwareupdate_list_installers.py` `main`)

The per-line pattern is
`^\* Title:\s+(.*?), Version:\s+(.*?), Size:\s+(.*?), Build:\s+(\S+), Deferred:\s+(.*)$`,
applied with `pattern.match` to each stripped line that starts with
`"* Title:"`.  We embed it directly: `\s+` consumes a maximal non-empty
whitespace run (the following group can never start with the separator
literals, whose first character `','` is non-whitespace, so maximal
consumption agrees with the backtracking engine), each lazy group `(.*?)`
captures the shortest prefix such that its separator literal and the rest of
the pattern match, `(\S+)` captures the longest non-whitespace run such that
the rest matches, and the final `(.*)$` takes the remainder of the line. -/

namespace ListInstallers

/-- Python's `\s` on the ASCII range. -/
def isPySpace (c : Char) : Bool :=
  c == ' ' || c == '\t' || c == '\n' || c == '\r' || c == '\x0b' || c == '\x0c'

/-- Python's `str.strip()`. -/
def pyStrip (s : List Char) : List Char :=
  ((s.dropWhile isPySpace).reverse.dropWhile isPySpace).reverse

/-- One parsed installer line; all five captured groups are kept as the raw
(stripped) strings, exactly as the module stores them. -/
structure InstallerRecord where
  title : String
  version : String
  size : String
  build : String
  deferred : String
  deriving DecidableEq, Repr

/-- `\s+`: requires at least one whitespace character and consumes the
maximal run. -/
def dropWs1 : List Char → Option (List Char)
  | [] => none
  | c :: rest =>
    if isPySpace c then some (rest.dropWhile isPySpace) else none

/-- Attempt the literal `lit` at the current position and, on success, run
the continuation on what follows it (capture so far: empty). -/
def tryHere (lit : List Char) (k : List Char → Option α) (s : List Char) :
    Option (List Char × α) :=
  if lit.isPrefixOf s then (k (s.drop lit.length)).map fun a => ([], a)
  else none

/-- Lazy group `(.*?)` followed by the literal `lit`: capture the shortest
prefix after which `lit` occurs and the continuation succeeds, retrying at
each longer prefix otherwise (the backtracking of the lazy quantifier). -/
def lazyUntil (lit : List Char) (k : List Char → Option α) :
    List Char → Option (List Char × α)
  | [] => tryHere lit k []
  | c :: rest =>
    match tryHere lit k (c :: rest) with
    | some r => some r
    | none => (lazyUntil lit k rest).map fun p => (c :: p.1, p.2)

/-- Backtracking for `(\S+)`: try capture lengths from `n` downward (the
greedy quantifier yields the longest run first). -/
def greedyLens (run rest : List Char) (k : List Char → Option α) :
    Nat → Option (List Char × α)
  | 0 => none
  | n + 1 =>
    match k (run.drop (n + 1) ++ rest) with
    | some a => some (run.take (n + 1), a)
    | none => greedyLens run rest k n

/-- Greedy group `(\S+)`: capture the longest non-empty non-whitespace run
such that the continuation succeeds on the remainder. -/
def greedyNonWs (k : List Char → Option α) (s : List Char) :
    Option (List Char × α) :=
  let run := s.takeWhile fun c => !isPySpace c
  let rest := s.dropWhile fun c => !isPySpace c
  greedyLens run rest k run.length

def litTitle : List Char := "* Title:".data

def litVersion : List Char := ", Version:".data

def litSize : List Char := ", Size:".data

def litBuild : List Char := ", Build:".data

def litDeferred : List Char := ", Deferred:".data

/-- `pattern.match(line)` for the installer-listing pattern, returning the
five groups with `.strip()` applied, as the module does. -/
def matchTitleLine (line : List Char) : Option InstallerRecord :=
  if litTitle.isPrefixOf line then
    match dropWs1 (line.drop litTitle.length) with
    | none => none
    | some s1 =>
      match lazyUntil litVersion (fun r =>
          (dropWs1 r).bind fun r1 =>
            lazyUntil litSize (fun r2 =>
              (dropWs1 r2).bind fun r3 =>
                lazyUntil litBuild (fun r4 =>
                  (dropWs1 r4).bind fun r5 =>
                    greedyNonWs (fun r6 =>
                      if litDeferred.isPrefixOf r6 then
                        dropWs1 (r6.drop litDeferred.length)
                      else none) r5) r3) r1) s1 with
      | none => none
      | some (t, v, sz, b, d) =>
        some ⟨⟨pyStrip t⟩, ⟨pyStrip v⟩, ⟨pyStrip sz⟩, ⟨pyStrip b⟩, ⟨pyStrip d⟩⟩
  else none

/-- `str.splitlines()` on newline characters.  (Python omits a final empty
piece after a trailing newline; such a piece is blank, does not start with
`"* Title:"`, and is skipped by the loop either way.) -/
def splitLinesL : List Char → List (List Char)
  | [] => [[]]
  | c :: rest =>
    if c = '\n' then [] :: splitLinesL rest
    else
      match splitLinesL rest with
      | [] => [[c]]
      | t :: ts => (c :: t) :: ts

/-- The parsing loop of `main`: split into lines, strip each line, attempt
the pattern on lines starting with `"* Title:"`, apply the optional version
filter (`version_regex.match`, a starts-with predicate, kept abstract), and
collect the records; non-matching lines are skipped. -/
def parse_installers (version_filter : Option (String → Bool))
    (raw : String) : List InstallerRecord :=
  (splitLinesL raw.data).filterMap fun rawLine =>
    let line := pyStrip rawLine
    if litTitle.isPrefixOf line then
      match matchTitleLine line with
      | none => none
      | some rec =>
        match version_filter with
        | none => some rec
        | some f => if f rec.version then some rec else none
    else none

/-- **C3 (the code at the claim's fixture).** On the fixture line the parser
returns exactly one record whose version is `"14.7.2"`; but its size field
is the raw *string* `"123456KiB"` (the group is stored unconverted under the
key `size`), not the integer `123456` that the claim — and the module's own
`RETURN` documentation (`size_kib`, type `int`) — describe. -/
theorem parse_installers_fixture :
    parse_installers none
      "* Title: macOS Sonoma 14.7.2, Version: 14.7.2, Size: 123456KiB, Build: 23H311, Deferred: NO"
      = [⟨"macOS Sonoma 14.7.2", "14.7.2", "123456KiB", "23H311", "NO"⟩] := by
  decide

/-! ## Latest-per-major-version reduction (`main`, `latest_only` branch)

The module groups installers into the insertion-ordered dict
`latest_installers` keyed by `int(installer['version'].split('.')[0])`
(records whose first component does not parse as an integer are skipped),
keeps for each key the first-seen maximum under Python tuple comparison of
`parse_version`, and finally sorts the values by major version descending.
The dict is embedded as an insertion-ordered association list; Python's
stable `sorted(..., reverse=True)` as a stable descending insertion sort. -/

/-- Python's `int(s)`: optional surrounding whitespace, optional sign,
then one or more digits. -/
def pyIntL (s : List Char) : Option Int :=
  match pyStrip s with
  | '-' :: ds => if isDigits ds then some (-(digitsToNat ds : Int)) else none
  | '+' :: ds => if isDigits ds then some ((digitsToNat ds : Int)) else none
  | ds => if isDigits ds then some ((digitsToNat ds : Int)) else none

/-- `int(version.split('.')[0])`, `None` on `ValueError`. -/
def majorKey (version : String) : Option Int :=
  pyIntL ((splitDots version.data).headD [])

/-- Dict lookup on the insertion-ordered association list. -/
def lookupMajor (m : Int) : List (Int × InstallerRecord) → Option InstallerRecord
  | [] => none
  | (k, r) :: rest => if k = m then some r else lookupMajor m rest

/-- Dict assignment to an existing key: replace in place. -/
def replaceMajor (m : Int) (r : InstallerRecord) :
    List (Int × InstallerRecord) → List (Int × InstallerRecord)
  | [] => []
  | (k, r0) :: rest =>
    if k = m then (k, r) :: rest else (k, r0) :: replaceMajor m r rest

/-- One iteration of the grouping loop of `main`. -/
def updateLatest (acc : List (Int × InstallerRecord))
    (installer : InstallerRecord) : List (Int × InstallerRecord) :=
  match majorKey installer.version with
  | none => acc
  | some m =>
    match lookupMajor m acc with
    | some current_latest =>
      if versionGt installer.version current_latest.version then
        replaceMajor m installer acc
      else acc
    | none => acc ++ [(m, installer)]

/-- Stable descending insertion by major key (Python's stable
`sorted(..., key=major, reverse=True)`). -/
def insertByMajorDesc (p : Int × InstallerRecord) :
    List (Int × InstallerRecord) → List (Int × InstallerRecord)
  | [] => [p]
  | q :: rest =>
    if q.1 ≥ p.1 then q :: insertByMajorDesc p rest else p :: q :: rest

def sortByMajorDesc (l : List (Int × InstallerRecord)) :
    List (Int × InstallerRecord) :=
  l.foldl (fun acc p => insertByMajorDesc p acc) []

/-- The keyed result of the `latest_only` branch, before the values are
extracted. -/
def keyedLatest (installers : List InstallerRecord) :
    List (Int × InstallerRecord) :=
  sortByMajorDesc (installers.foldl updateLatest [])

/-- The `latest_only` result list of `main`. -/
def reduce_latest (installers : List InstallerRecord) : List InstallerRecord :=
  (keyedLatest installers).map Prod.snd

/-- Stable descending insertion by full parsed version (the non-reduced
branch `sorted(installers, key=parse_version, reverse=True)`). -/
def insertByVersionDesc (r : InstallerRecord) :
    List InstallerRecord → List InstallerRecord
  | [] => [r]
  | q :: rest =>
    if tupleCompare (parse_version q.version) (parse_version r.version)
        = .lt then
      r :: q :: rest
    else q :: insertByVersionDesc r rest

/-- The non-reduced branch: the full record list sorted descending by
parsed version. -/
def sortFull (l : List InstallerRecord) : List InstallerRecord :=
  l.foldl (fun acc r => insertByVersionDesc r acc) []

/-! ### Order lemmas for the tuple comparison -/

theorem tupleCompare_eq_iff (as : List Nat) :
    ∀ bs, tupleCompare as bs = .eq ↔ as = bs := by
  induction as with
  | nil => intro bs; cases bs <;> simp [tupleCompare]
  | cons a as ih =>
    intro bs
    cases bs with
    | nil => simp [tupleCompare]
    | cons b bs =>
      simp only [tupleCompare]
      rcases Nat.lt_trichotomy a b with h | h | h
      · rw [if_pos h]
        simp
        omega
      · subst h
        rw [if_neg (Nat.lt_irrefl a), if_neg (Nat.lt_irrefl a)]
        simp [ih]
      · rw [if_neg (by omega), if_pos h]
        simp
        omega

theorem tupleCompare_swap (as : List Nat) :
    ∀ bs, tupleCompare bs as = (tupleCompare as bs).swap := by
  induction as with
  | nil => intro bs; cases bs <;> rfl
  | cons a as ih =>
    intro bs
    cases bs with
    | nil => rfl
    | cons b bs =>
      simp only [tupleCompare]
      rcases Nat.lt_trichotomy a b with h | h | h
      · have h' : ¬ b < a := by omega
        simp [h, h', Ordering.swap]
      · subst h
        simp only [Nat.lt_irrefl, if_neg (Nat.lt_irrefl a), if_false]
        exact ih bs
      · have h' : ¬ a < b := by omega
        simp [h, h', Ordering.swap]

theorem tupleCompare_gt_iff (as bs : List Nat) :
    tupleCompare as bs = .gt ↔ tupleCompare bs as = .lt := by
  rw [tupleCompare_swap bs as]
  rcases h : tupleCompare bs as with _ | _ | _ <;> simp [Ordering.swap]

theorem tupleCompare_lt_trans {as bs cs : List Nat}
    (h1 : tupleCompare as bs = .lt) (h2 : tupleCompare bs cs = .lt) :
    tupleCompare as cs = .lt := by
  induction as generalizing bs cs with
  | nil =>
    cases bs with
    | nil => simp [tupleCompare] at h1
    | cons b bs =>
      cases cs with
      | nil => simp [tupleCompare] at h2
      | cons c cs => simp [tupleCompare]
  | cons a as ih =>
    cases bs with
    | nil => simp [tupleCompare] at h1
    | cons b bs =>
      cases cs with
      | nil => simp [tupleCompare] at h2
      | cons c cs =>
        simp only [tupleCompare] at h1 h2 ⊢
        rcases Nat.lt_trichotomy a b with hab | hab | hab
        · rcases Nat.lt_trichotomy b c with hbc | hbc | hbc
          · rw [if_pos (by omega)]
          · subst hbc
            rw [if_pos hab]
          · rw [if_neg (by omega), if_pos hbc] at h2
            cases h2
        · subst hab
          rcases Nat.lt_trichotomy a c with hac | hac | hac
          · rw [if_pos hac]
          · subst hac
            rw [if_neg (Nat.lt_irrefl a), if_neg (Nat.lt_irrefl a)] at h1 h2 ⊢
            exact ih h1 h2
          · rw [if_neg (by omega), if_pos hac] at h2
            cases h2
        · rw [if_neg (by omega), if_pos hab] at h1
          cases h1

theorem tupleCompare_ne_gt_iff (as bs : List Nat) :
    tupleCompare as bs ≠ .gt ↔
      tupleCompare as bs = .lt ∨ as = bs := by
  rcases h : tupleCompare as bs with _ | _ | _
  · simp [← tupleCompare_eq_iff as bs, h]
  · simp [← tupleCompare_eq_iff as bs, h]
  · simp [← tupleCompare_eq_iff as bs, h]

theorem tupleCompare_lt_of_le_of_lt {as bs cs : List Nat}
    (h1 : tupleCompare as bs ≠ .gt) (h2 : tupleCompare bs cs = .lt) :
    tupleCompare as cs = .lt := by
  rcases (tupleCompare_ne_gt_iff as bs).mp h1 with h | h
  · exact tupleCompare_lt_trans h h2
  · subst h; exact h2

theorem tupleCompare_lt_of_lt_of_le {as bs cs : List Nat}
    (h1 : tupleCompare as bs = .lt) (h2 : tupleCompare bs cs ≠ .gt) :
    tupleCompare as cs = .lt := by
  rcases (tupleCompare_ne_gt_iff bs cs).mp h2 with h | h
  · exact tupleCompare_lt_trans h1 h
  · subst h; exact h1

theorem tupleCompare_le_trans {as bs cs : List Nat}
    (h1 : tupleCompare as bs ≠ .gt) (h2 : tupleCompare bs cs ≠ .gt) :
    tupleCompare as cs ≠ .gt := by
  rcases (tupleCompare_ne_gt_iff as bs).mp h1 with h | h
  · have := tupleCompare_lt_of_lt_of_le h h2
    simp [this]
  · subst h; exact h2

/-! ### The per-group maximum selection -/

/-- Parsed version of a record. -/
def pv (r : InstallerRecord) : List Nat := parse_version r.version

/-- One step of keeping the running latest record. -/
def maxStep (c : Option InstallerRecord) (r : InstallerRecord) :
    Option InstallerRecord :=
  match c with
  | none => some r
  | some current_latest =>
    if versionGt r.version current_latest.version then some r
    else some current_latest

/-- Running latest over a list. -/
def maxFold (c : Option InstallerRecord) (g : List InstallerRecord) :
    Option InstallerRecord :=
  g.foldl maxStep c

/-- Running latest restricted to the records of major version `m`. -/
def runMax (m : Int) (c : Option InstallerRecord)
    (l : List InstallerRecord) : Option InstallerRecord :=
  l.foldl (fun c r => if majorKey r.version == some m then maxStep c r else c) c

/-- `x` is the first-seen greatest element of the group `g`: it occurs in
`g`, no element of `g` compares greater, and every element strictly before
its occurrence compares strictly less (so a tie keeps the first-seen). -/
def IsFirstMax (g : List InstallerRecord) (x : InstallerRecord) : Prop :=
  ∃ pre post, g = pre ++ x :: post ∧
    (∀ y ∈ g, tupleCompare (pv y) (pv x) ≠ .gt) ∧
    (∀ y ∈ pre, tupleCompare (pv y) (pv x) = .lt)

theorem versionGt_iff (x y : String) :
    versionGt x y = true ↔
      tupleCompare (parse_version x) (parse_version y) = .gt := by
  unfold versionGt
  rcases h : tupleCompare (parse_version x) (parse_version y) with _ | _ | _ <;>
    simp <;> decide

theorem maxFold_some_spec (g : List InstallerRecord) :
    ∀ c x, maxFold (some c) g = some x →
      tupleCompare (pv c) (pv x) ≠ .gt ∧
      (∀ y ∈ g, tupleCompare (pv y) (pv x) ≠ .gt) ∧
      (x = c ∨ ∃ pre post, g = pre ++ x :: post ∧
        tupleCompare (pv c) (pv x) = .lt ∧
        ∀ y ∈ pre, tupleCompare (pv y) (pv x) = .lt) := by
  induction g with
  | nil =>
    intro c x h
    have hcx : c = x := by simpa [maxFold] using h
    subst hcx
    refine ⟨by simp [tupleCompare_self], ?_, Or.inl rfl⟩
    intro y hy
    cases hy
  | cons r g ih =>
    intro c x h
    by_cases hgt : versionGt r.version c.version = true
    · have hms : maxFold (some c) (r :: g) = maxFold (some r) g := by
        show maxFold (maxStep (some c) r) g = _
        simp [maxStep, hgt]
      rw [hms] at h
      obtain ⟨hrx, hgx, hdis⟩ := ih r x h
      have hcr : tupleCompare (pv c) (pv r) = .lt :=
        (tupleCompare_gt_iff _ _).mp ((versionGt_iff _ _).mp hgt)
      have hcxlt : tupleCompare (pv c) (pv x) = .lt :=
        tupleCompare_lt_of_lt_of_le hcr hrx
      refine ⟨by simp [hcxlt], ?_, ?_⟩
      · intro y hy
        rcases List.mem_cons.mp hy with hyr | hyg
        · subst hyr; exact hrx
        · exact hgx y hyg
      · rcases hdis with hxr | ⟨pre, post, hg, hrxlt, hpre⟩
        · subst hxr
          exact Or.inr ⟨[], g, rfl, hcxlt, by intro y hy; cases hy⟩
        · refine Or.inr ⟨r :: pre, post, by simp [hg], hcxlt, ?_⟩
          intro y hy
          rcases List.mem_cons.mp hy with hyr | hyp
          · subst hyr; exact hrxlt
          · exact hpre y hyp
    · have hms : maxFold (some c) (r :: g) = maxFold (some c) g := by
        show maxFold (maxStep (some c) r) g = _
        simp [maxStep, hgt]
      rw [hms] at h
      obtain ⟨hcx, hgx, hdis⟩ := ih c x h
      have hrc : tupleCompare (pv r) (pv c) ≠ .gt := by
        intro hcon
        exact hgt ((versionGt_iff _ _).mpr hcon)
      have hrx : tupleCompare (pv r) (pv x) ≠ .gt :=
        tupleCompare_le_trans hrc hcx
      refine ⟨hcx, ?_, ?_⟩
      · intro y hy
        rcases List.mem_cons.mp hy with hyr | hyg
        · subst hyr; exact hrx
        · exact hgx y hyg
      · rcases hdis with hxc | ⟨pre, post, hg, hcxlt, hpre⟩
        · exact Or.inl hxc
        · refine Or.inr ⟨r :: pre, post, by simp [hg], hcxlt, ?_⟩
          intro y hy
          rcases List.mem_cons.mp hy with hyr | hyp
          · subst hyr; exact tupleCompare_lt_of_le_of_lt hrc hcxlt
          · exact hpre y hyp

theorem maxFold_none_isFirstMax (g : List InstallerRecord)
    (x : InstallerRecord) (h : maxFold none g = some x) : IsFirstMax g x := by
  cases g with
  | nil => simp [maxFold] at h
  | cons r g =>
    have h' : maxFold (some r) g = some x := h
    obtain ⟨hrx, hgx, hdis⟩ := maxFold_some_spec g r x h'
    rcases hdis with hxr | ⟨pre, post, hg, hlt, hpre⟩
    · subst hxr
      refine ⟨[], g, rfl, ?_, by intro y hy; cases hy⟩
      intro y hy
      rcases List.mem_cons.mp hy with hyr | hyg
      · subst hyr; simp [tupleCompare_self]
      · exact hgx y hyg
    · refine ⟨r :: pre, post, by simp [hg], ?_, ?_⟩
      · intro y hy
        rcases List.mem_cons.mp hy with hyr | hyg
        · subst hyr; exact hrx
        · exact hgx y hyg
      · intro y hy
        rcases List.mem_cons.mp hy with hyr | hyp
        · subst hyr; exact hlt
        · exact hpre y hyp

theorem maxFold_some_isSome (g : List InstallerRecord) :
    ∀ c, (maxFold (some c) g).isSome = true := by
  induction g with
  | nil => intro c; rfl
  | cons r g ih =>
    intro c
    by_cases hgt : versionGt r.version c.version = true
    · have h1 : maxFold (some c) (r :: g) = maxFold (some r) g := by
        show maxFold (maxStep (some c) r) g = _
        simp [maxStep, hgt]
      rw [h1]; exact ih r
    · have h1 : maxFold (some c) (r :: g) = maxFold (some c) g := by
        show maxFold (maxStep (some c) r) g = _
        simp [maxStep, hgt]
      rw [h1]; exact ih c

theorem runMax_eq_maxFold_filter (l : List InstallerRecord) (m : Int) :
    ∀ c, runMax m c l
      = maxFold c (l.filter fun r => majorKey r.version == some m) := by
  induction l with
  | nil => intro c; rfl
  | cons r l ih =>
    intro c
    by_cases hc : (majorKey r.version == some m) = true
    · have h1 : runMax m c (r :: l) = runMax m (maxStep c r) l := by
        unfold runMax
        rw [List.foldl_cons, if_pos hc]
      rw [h1, List.filter_cons, if_pos hc]
      exact ih (maxStep c r)
    · have h1 : runMax m c (r :: l) = runMax m c l := by
        unfold runMax
        rw [List.foldl_cons, if_neg hc]
      rw [h1, List.filter_cons, if_neg hc]
      exact ih c

/-! ### Lookup and replacement on the insertion-ordered dict -/

theorem lookupMajor_append (m : Int) (acc bcc : List (Int × InstallerRecord)) :
    lookupMajor m (acc ++ bcc)
      = match lookupMajor m acc with
        | some r => some r
        | none => lookupMajor m bcc := by
  induction acc with
  | nil => rfl
  | cons p rest ih =>
    obtain ⟨k, r⟩ := p
    by_cases hk : k = m
    · simp [lookupMajor, hk]
    · simp [lookupMajor, hk, ih]

theorem lookupMajor_replace_self (m : Int) (r : InstallerRecord)
    (acc : List (Int × InstallerRecord)) :
    lookupMajor m (replaceMajor m r acc)
      = (lookupMajor m acc).map fun _ => r := by
  induction acc with
  | nil => rfl
  | cons p rest ih =>
    obtain ⟨k, r0⟩ := p
    by_cases hk : k = m
    · simp [replaceMajor, lookupMajor, hk]
    · simp [replaceMajor, lookupMajor, hk, ih]

theorem lookupMajor_replace_other (m mo : Int) (r : InstallerRecord)
    (acc : List (Int × InstallerRecord)) (h : m ≠ mo) :
    lookupMajor m (replaceMajor mo r acc) = lookupMajor m acc := by
  induction acc with
  | nil => rfl
  | cons p rest ih =>
    obtain ⟨k, r0⟩ := p
    by_cases hk : k = mo
    · subst hk
      have hkm : ¬ k = m := fun hc => h hc.symm
      simp [replaceMajor, lookupMajor, hkm]
    · by_cases hm : k = m
      · subst hm
        simp [replaceMajor, lookupMajor, hk]
      · simp [replaceMajor, lookupMajor, hk, hm, ih]

theorem lookupMajor_eq_none_iff (m : Int)
    (acc : List (Int × InstallerRecord)) :
    lookupMajor m acc = none ↔ m ∉ acc.map Prod.fst := by
  induction acc with
  | nil => simp [lookupMajor]
  | cons p rest ih =>
    obtain ⟨k, r⟩ := p
    by_cases hk : k = m
    · subst hk
      simp [lookupMajor]
    · have hmk : ¬ m = k := fun hc => hk hc.symm
      simp [lookupMajor, hk, ih, hmk]

theorem lookupMajor_mem {m : Int} {r : InstallerRecord}
    {acc : List (Int × InstallerRecord)} (h : lookupMajor m acc = some r) :
    (m, r) ∈ acc := by
  induction acc with
  | nil => simp [lookupMajor] at h
  | cons p rest ih =>
    obtain ⟨k, r0⟩ := p
    by_cases hk : k = m
    · subst hk
      simp only [lookupMajor, if_pos rfl] at h
      injection h with h
      subst h
      exact List.mem_cons_self _ _
    · simp only [lookupMajor, if_neg hk] at h
      exact List.mem_cons_of_mem _ (ih h)

theorem mem_lookupMajor_of_nodup {m : Int} {r : InstallerRecord}
    {acc : List (Int × InstallerRecord)} (hnd : (acc.map Prod.fst).Nodup)
    (h : (m, r) ∈ acc) : lookupMajor m acc = some r := by
  induction acc with
  | nil => cases h
  | cons p rest ih =>
    obtain ⟨k, r0⟩ := p
    rw [List.map_cons] at hnd
    obtain ⟨hk, hnd'⟩ := List.nodup_cons.mp hnd
    rcases List.mem_cons.mp h with hh | hh
    · injection hh with h1 h2
      subst h1; subst h2
      simp [lookupMajor]
    · by_cases hkm : k = m
      · subst hkm
        exact absurd (List.mem_map_of_mem Prod.fst hh) hk
      · simp only [lookupMajor, if_neg hkm]
        exact ih hnd' hh

theorem mem_replaceMajor {m : Int} {r : InstallerRecord}
    {acc : List (Int × InstallerRecord)} :
    ∀ p ∈ replaceMajor m r acc, p ∈ acc ∨ p = (m, r) := by
  induction acc with
  | nil => intro p hp; cases hp
  | cons q rest ih =>
    obtain ⟨k, r0⟩ := q
    intro p hp
    by_cases hk : k = m
    · subst hk
      rw [replaceMajor, if_pos rfl] at hp
      rcases List.mem_cons.mp hp with hh | hh
      · exact Or.inr hh
      · exact Or.inl (List.mem_cons_of_mem _ hh)
    · rw [replaceMajor, if_neg hk] at hp
      rcases List.mem_cons.mp hp with hh | hh
      · exact Or.inl (by rw [hh]; exact List.mem_cons_self _ _)
      · rcases ih p hh with h | h
        · exact Or.inl (List.mem_cons_of_mem _ h)
        · exact Or.inr h

theorem replaceMajor_map_fst (m : Int) (r : InstallerRecord)
    (acc : List (Int × InstallerRecord)) :
    (replaceMajor m r acc).map Prod.fst = acc.map Prod.fst := by
  induction acc with
  | nil => rfl
  | cons q rest ih =>
    obtain ⟨k, r0⟩ := q
    by_cases hk : k = m
    · simp [replaceMajor, hk]
    · simp [replaceMajor, hk, ih]

/-! ### The grouping fold -/

theorem updateLatest_of_none {acc : List (Int × InstallerRecord)}
    {r : InstallerRecord} (h : majorKey r.version = none) :
    updateLatest acc r = acc := by
  simp [updateLatest, h]

theorem updateLatest_of_new {acc : List (Int × InstallerRecord)}
    {r : InstallerRecord} {m : Int} (hmk : majorKey r.version = some m)
    (hl : lookupMajor m acc = none) :
    updateLatest acc r = acc ++ [(m, r)] := by
  simp [updateLatest, hmk, hl]

theorem updateLatest_of_repl {acc : List (Int × InstallerRecord)}
    {r current_latest : InstallerRecord} {m : Int}
    (hmk : majorKey r.version = some m)
    (hl : lookupMajor m acc = some current_latest)
    (hgt : versionGt r.version current_latest.version = true) :
    updateLatest acc r = replaceMajor m r acc := by
  simp [updateLatest, hmk, hl, hgt]

theorem updateLatest_of_keep {acc : List (Int × InstallerRecord)}
    {r current_latest : InstallerRecord} {m : Int}
    (hmk : majorKey r.version = some m)
    (hl : lookupMajor m acc = some current_latest)
    (hgt : ¬ versionGt r.version current_latest.version = true) :
    updateLatest acc r = acc := by
  simp [updateLatest, hmk, hl, hgt]

theorem updateLatest_mem {acc : List (Int × InstallerRecord)}
    {r : InstallerRecord} :
    ∀ p ∈ updateLatest acc r, p ∈ acc ∨
      ∃ m, majorKey r.version = some m ∧ p = (m, r) := by
  intro p hp
  cases hmk : majorKey r.version with
  | none =>
    rw [updateLatest_of_none hmk] at hp
    exact Or.inl hp
  | some m =>
    cases hl : lookupMajor m acc with
    | none =>
      rw [updateLatest_of_new hmk hl] at hp
      rcases List.mem_append.mp hp with hh | hh
      · exact Or.inl hh
      · exact Or.inr ⟨m, rfl, by simpa using hh⟩
    | some current_latest =>
      by_cases hgt : versionGt r.version current_latest.version = true
      · rw [updateLatest_of_repl hmk hl hgt] at hp
        rcases mem_replaceMajor p hp with hh | hh
        · exact Or.inl hh
        · exact Or.inr ⟨m, rfl, hh⟩
      · rw [updateLatest_of_keep hmk hl hgt] at hp
        exact Or.inl hp

theorem updateLatest_lookup (acc : List (Int × InstallerRecord))
    (r : InstallerRecord) (m : Int) :
    lookupMajor m (updateLatest acc r)
      = if majorKey r.version == some m then maxStep (lookupMajor m acc) r
        else lookupMajor m acc := by
  cases hmk : majorKey r.version with
  | none => simp [updateLatest_of_none hmk]
  | some mr =>
    by_cases hmm : mr = m
    · subst hmm
      rw [if_pos (by simp)]
      cases hl : lookupMajor mr acc with
      | none =>
        rw [updateLatest_of_new hmk hl, lookupMajor_append, hl]
        simp [lookupMajor, maxStep]
      | some current_latest =>
        by_cases hgt : versionGt r.version current_latest.version = true
        · rw [updateLatest_of_repl hmk hl hgt, lookupMajor_replace_self, hl]
          simp [maxStep, hgt]
        · rw [updateLatest_of_keep hmk hl hgt, hl]
          simp [maxStep, hgt]
    · have hne : ¬ (some mr == some m) = true := by
        simp [fun hc : mr = m => hmm hc]
      rw [if_neg hne]
      cases hl : lookupMajor mr acc with
      | none =>
        rw [updateLatest_of_new hmk hl, lookupMajor_append]
        cases hlm : lookupMajor m acc with
        | none => simp [lookupMajor, fun hc : mr = m => hmm hc]
        | some z => simp
      | some current_latest =>
        by_cases hgt : versionGt r.version current_latest.version = true
        · rw [updateLatest_of_repl hmk hl hgt,
            lookupMajor_replace_other m mr r acc (fun hc => hmm hc.symm)]
        · rw [updateLatest_of_keep hmk hl hgt]

theorem foldl_updateLatest_lookup (l : List InstallerRecord) :
    ∀ (acc : List (Int × InstallerRecord)) (m : Int),
      lookupMajor m (l.foldl updateLatest acc)
        = runMax m (lookupMajor m acc) l := by
  induction l with
  | nil => intro acc m; rfl
  | cons r l ih =>
    intro acc m
    show lookupMajor m (l.foldl updateLatest (updateLatest acc r)) = _
    rw [ih (updateLatest acc r) m, updateLatest_lookup]
    unfold runMax
    rw [List.foldl_cons]

theorem foldl_updateLatest_keys_nodup (l : List InstallerRecord) :
    ∀ acc : List (Int × InstallerRecord), (acc.map Prod.fst).Nodup →
      ((l.foldl updateLatest acc).map Prod.fst).Nodup := by
  induction l with
  | nil => intro acc h; exact h
  | cons r l ih =>
    intro acc h
    apply ih
    cases hmk : majorKey r.version with
    | none => rw [updateLatest_of_none hmk]; exact h
    | some m =>
      cases hl : lookupMajor m acc with
      | none =>
        have hm : m ∉ acc.map Prod.fst := (lookupMajor_eq_none_iff m acc).mp hl
        rw [updateLatest_of_new hmk hl]
        simp only [List.map_append, List.map_cons, List.map_nil]
        rw [List.nodup_append]
        exact ⟨h, List.nodup_singleton m, by simpa using hm⟩
      | some current_latest =>
        by_cases hgt : versionGt r.version current_latest.version = true
        · rw [updateLatest_of_repl hmk hl hgt, replaceMajor_map_fst]
          exact h
        · rw [updateLatest_of_keep hmk hl hgt]
          exact h

theorem foldl_updateLatest_key_inv (l : List InstallerRecord) :
    ∀ acc : List (Int × InstallerRecord),
      (∀ p ∈ acc, majorKey p.2.version = some p.1) →
      ∀ p ∈ l.foldl updateLatest acc, majorKey p.2.version = some p.1 := by
  induction l with
  | nil => intro acc h; exact h
  | cons r l ih =>
    intro acc h
    apply ih
    intro p hp
    rcases updateLatest_mem p hp with hh | ⟨m, hmk, hpr⟩
    · exact h p hh
    · rw [hpr]
      exact hmk

theorem foldl_updateLatest_val_mem (l : List InstallerRecord) :
    ∀ acc : List (Int × InstallerRecord),
      ∀ p ∈ l.foldl updateLatest acc, p ∈ acc ∨ p.2 ∈ l := by
  induction l with
  | nil => intro acc p hp; exact Or.inl hp
  | cons r l ih =>
    intro acc p hp
    rcases ih (updateLatest acc r) p hp with hh | hh
    · rcases updateLatest_mem p hh with h2 | ⟨m, hmk, hpr⟩
      · exact Or.inl h2
      · exact Or.inr (by rw [hpr]; exact List.mem_cons_self _ _)
    · exact Or.inr (List.mem_cons_of_mem _ hh)

/-! ### The final descending sorts -/

theorem mem_insertByMajorDesc (p : Int × InstallerRecord) :
    ∀ (l : List (Int × InstallerRecord)) (q : Int × InstallerRecord),
      q ∈ insertByMajorDesc p l ↔ q = p ∨ q ∈ l := by
  intro l
  induction l with
  | nil => intro q; simp [insertByMajorDesc]
  | cons a rest ih =>
    intro q
    by_cases hc : a.1 ≥ p.1
    · rw [insertByMajorDesc, if_pos hc]
      simp only [List.mem_cons, ih]
      tauto
    · rw [insertByMajorDesc, if_neg hc]
      simp only [List.mem_cons]

theorem insertByMajorDesc_perm (p : Int × InstallerRecord)
    (l : List (Int × InstallerRecord)) :
    (insertByMajorDesc p l).Perm (p :: l) := by
  induction l with
  | nil => exact List.Perm.refl _
  | cons a rest ih =>
    by_cases hc : a.1 ≥ p.1
    · rw [insertByMajorDesc, if_pos hc]
      exact (ih.cons a).trans (List.Perm.swap p a rest)
    · rw [insertByMajorDesc, if_neg hc]

theorem foldl_insertByMajorDesc_perm (l : List (Int × InstallerRecord)) :
    ∀ acc, (l.foldl (fun acc p => insertByMajorDesc p acc) acc).Perm
      (acc ++ l) := by
  induction l with
  | nil => intro acc; simp
  | cons p l ih =>
    intro acc
    refine ((ih (insertByMajorDesc p acc)).trans ?_)
    refine (((insertByMajorDesc_perm p acc).append_right l).trans ?_)
    exact List.perm_middle.symm

theorem sortByMajorDesc_perm (l : List (Int × InstallerRecord)) :
    (sortByMajorDesc l).Perm l := by
  simpa [sortByMajorDesc] using foldl_insertByMajorDesc_perm l []

theorem insertByMajorDesc_pairwise (p : Int × InstallerRecord)
    (l : List (Int × InstallerRecord))
    (h : l.Pairwise (fun a b => b.1 ≤ a.1)) :
    (insertByMajorDesc p l).Pairwise (fun a b => b.1 ≤ a.1) := by
  induction l with
  | nil => simp [insertByMajorDesc]
  | cons a rest ih =>
    obtain ⟨ha, hrest⟩ := List.pairwise_cons.mp h
    by_cases hc : a.1 ≥ p.1
    · rw [insertByMajorDesc, if_pos hc]
      rw [List.pairwise_cons]
      refine ⟨?_, ih hrest⟩
      intro y hy
      rcases (mem_insertByMajorDesc p rest y).mp hy with hyp | hyr
      · rw [hyp]; exact hc
      · exact ha y hyr
    · rw [insertByMajorDesc, if_neg hc]
      rw [List.pairwise_cons]
      refine ⟨?_, h⟩
      intro y hy
      rcases List.mem_cons.mp hy with hya | hyr
      · rw [hya]; omega
      · have h1 := ha y hyr
        omega

theorem foldl_insertByMajorDesc_pairwise (l : List (Int × InstallerRecord)) :
    ∀ acc, acc.Pairwise (fun a b => b.1 ≤ a.1) →
      (l.foldl (fun acc p => insertByMajorDesc p acc) acc).Pairwise
        (fun a b => b.1 ≤ a.1) := by
  induction l with
  | nil => intro acc h; exact h
  | cons p l ih =>
    intro acc h
    exact ih _ (insertByMajorDesc_pairwise p acc h)

theorem sortByMajorDesc_pairwise (l : List (Int × InstallerRecord)) :
    (sortByMajorDesc l).Pairwise (fun a b => b.1 ≤ a.1) :=
  foldl_insertByMajorDesc_pairwise l [] List.Pairwise.nil

theorem mem_insertByVersionDesc (r : InstallerRecord) :
    ∀ (l : List InstallerRecord) (q : InstallerRecord),
      q ∈ insertByVersionDesc r l ↔ q = r ∨ q ∈ l := by
  intro l
  induction l with
  | nil => intro q; simp [insertByVersionDesc]
  | cons a rest ih =>
    intro q
    by_cases hc : tupleCompare (parse_version a.version)
        (parse_version r.version) = .lt
    · rw [insertByVersionDesc, if_pos hc]
      simp only [List.mem_cons]
    · rw [insertByVersionDesc, if_neg hc]
      simp only [List.mem_cons, ih]
      tauto

theorem mem_sortFull_aux (l : List InstallerRecord) :
    ∀ (acc : List InstallerRecord) (x : InstallerRecord),
      x ∈ acc ∨ x ∈ l →
      x ∈ l.foldl (fun acc r => insertByVersionDesc r acc) acc := by
  induction l with
  | nil =>
    intro acc x h
    rcases h with h | h
    · exact h
    · cases h
  | cons r l ih =>
    intro acc x h
    apply ih (insertByVersionDesc r acc) x
    rcases h with h | h
    · exact Or.inl ((mem_insertByVersionDesc r acc x).mpr (Or.inr h))
    · rcases List.mem_cons.mp h with h | h
      · exact Or.inl ((mem_insertByVersionDesc r acc x).mpr (Or.inl h))
      · exact Or.inr h

/-! ### The keyed reduction -/

theorem keyedLatest_mem_fold {l : List InstallerRecord}
    {p : Int × InstallerRecord} (hp : p ∈ keyedLatest l) :
    p ∈ l.foldl updateLatest [] :=
  (sortByMajorDesc_perm (l.foldl updateLatest [])).subset hp

theorem keyedLatest_key_inv {l : List InstallerRecord}
    {p : Int × InstallerRecord} (hp : p ∈ keyedLatest l) :
    majorKey p.2.version = some p.1 :=
  foldl_updateLatest_key_inv l [] (by intro q hq; cases hq) p
    (keyedLatest_mem_fold hp)

theorem keyedLatest_val_mem {l : List InstallerRecord}
    {p : Int × InstallerRecord} (hp : p ∈ keyedLatest l) : p.2 ∈ l := by
  rcases foldl_updateLatest_val_mem l [] p (keyedLatest_mem_fold hp) with h | h
  · cases h
  · exact h

theorem fold_keys_nodup (l : List InstallerRecord) :
    ((l.foldl updateLatest []).map Prod.fst).Nodup :=
  foldl_updateLatest_keys_nodup l [] (by simp)

theorem lookup_fold_eq_filter (l : List InstallerRecord) (m : Int) :
    lookupMajor m (l.foldl updateLatest [])
      = maxFold none (l.filter fun r => majorKey r.version == some m) := by
  rw [foldl_updateLatest_lookup l [] m]
  exact runMax_eq_maxFold_filter l m none

/-- **C4.** The latest-only reduction returns exactly one record per
distinct major version: its keys are duplicate-free, a major version
appears among them iff some input record parses to that major version, the
output is ordered strictly descending by major version, and each kept
record is a record of the input whose own major version is its key and
which is the first-seen greatest element (under the tuple comparison of
parsed versions, ties keeping the first-seen) among the input records of
its major-version group.  On the spec's example the result is exactly the
versions 15.0, 14.7.2, 13.7 in that order. -/
theorem reduce_latest_spec (l : List InstallerRecord) :
    ((keyedLatest l).map Prod.fst).Nodup ∧
    (∀ m : Int, (∃ p ∈ keyedLatest l, p.1 = m) ↔
      ∃ r ∈ l, majorKey r.version = some m) ∧
    List.Sorted (· > ·) ((keyedLatest l).map Prod.fst) ∧
    (∀ p ∈ keyedLatest l, majorKey p.2.version = some p.1 ∧ p.2 ∈ l ∧
      IsFirstMax (l.filter fun r => majorKey r.version == some p.1) p.2) ∧
    reduce_latest l = (keyedLatest l).map Prod.snd ∧
    reduce_latest
      [⟨"macOS Ventura 13.6", "13.6", "1KiB", "b1", "NO"⟩,
       ⟨"macOS Ventura 13.7", "13.7", "1KiB", "b2", "NO"⟩,
       ⟨"macOS Sonoma 14.1", "14.1", "1KiB", "b3", "NO"⟩,
       ⟨"macOS Sonoma 14.7.2", "14.7.2", "1KiB", "b4", "NO"⟩,
       ⟨"macOS Sequoia 15.0", "15.0", "1KiB", "b5", "NO"⟩]
      = [⟨"macOS Sequoia 15.0", "15.0", "1KiB", "b5", "NO"⟩,
         ⟨"macOS Sonoma 14.7.2", "14.7.2", "1KiB", "b4", "NO"⟩,
         ⟨"macOS Ventura 13.7", "13.7", "1KiB", "b2", "NO"⟩] := by
  have hperm := sortByMajorDesc_perm (l.foldl updateLatest [])
  have hnodup : ((keyedLatest l).map Prod.fst).Nodup :=
    ((hperm.map Prod.fst).nodup_iff).mpr (fold_keys_nodup l)
  refine ⟨hnodup, ?_, ?_, ?_, rfl, by decide⟩
  · intro m
    constructor
    · rintro ⟨p, hp, hpm⟩
      refine ⟨p.2, keyedLatest_val_mem hp, ?_⟩
      rw [keyedLatest_key_inv hp, hpm]
    · rintro ⟨r, hr, hmk⟩
      have hfilter : r ∈ l.filter fun x => majorKey x.version == some m :=
        List.mem_filter.mpr ⟨hr, by simp [hmk]⟩
      have hsome : (lookupMajor m (l.foldl updateLatest [])).isSome = true := by
        rw [lookup_fold_eq_filter]
        cases hf : l.filter fun x => majorKey x.version == some m with
        | nil => rw [hf] at hfilter; cases hfilter
        | cons z g =>
          have : maxFold none (z :: g) = maxFold (some z) g := rfl
          rw [this]
          exact maxFold_some_isSome g z
      obtain ⟨x, hx⟩ := Option.isSome_iff_exists.mp hsome
      refine ⟨(m, x), ?_, rfl⟩
      exact hperm.symm.subset (lookupMajor_mem hx)
  · have hpw := sortByMajorDesc_pairwise (l.foldl updateLatest [])
    have hne : (keyedLatest l).Pairwise fun a b => a.1 ≠ b.1 :=
      (List.pairwise_map).mp hnodup
    have hand := hpw.and hne
    refine (List.pairwise_map).mpr (hand.imp ?_)
    intro a b hab
    obtain ⟨h1, h2⟩ := hab
    omega
  · intro p hp
    refine ⟨keyedLatest_key_inv hp, keyedLatest_val_mem hp, ?_⟩
    have hmem : (p.1, p.2) ∈ l.foldl updateLatest [] := by
      have := keyedLatest_mem_fold hp
      simpa using this
    have hlk : lookupMajor p.1 (l.foldl updateLatest []) = some p.2 :=
      mem_lookupMajor_of_nodup (fold_keys_nodup l) hmem
    rw [lookup_fold_eq_filter] at hlk
    exact maxFold_none_isFirstMax _ _ hlk

/-- **C4 witness.** On the spec's example list, the kept record of the
major-15 group is the record with version 15.0: its key is its own major
version, it comes from the input, and it is the first-seen greatest element
of its group. -/
theorem reduce_latest_spec_witness :
    majorKey (InstallerRecord.mk "macOS Sequoia 15.0" "15.0" "1KiB" "b5"
        "NO").version = some 15 ∧
    (InstallerRecord.mk "macOS Sequoia 15.0" "15.0" "1KiB" "b5" "NO") ∈
      [⟨"macOS Ventura 13.6", "13.6", "1KiB", "b1", "NO"⟩,
       ⟨"macOS Ventura 13.7", "13.7", "1KiB", "b2", "NO"⟩,
       ⟨"macOS Sonoma 14.1", "14.1", "1KiB", "b3", "NO"⟩,
       ⟨"macOS Sonoma 14.7.2", "14.7.2", "1KiB", "b4", "NO"⟩,
       ⟨"macOS Sequoia 15.0", "15.0", "1KiB", "b5", "NO"⟩] ∧
    IsFirstMax
      ([⟨"macOS Ventura 13.6", "13.6", "1KiB", "b1", "NO"⟩,
        ⟨"macOS Ventura 13.7", "13.7", "1KiB", "b2", "NO"⟩,
        ⟨"macOS Sonoma 14.1", "14.1", "1KiB", "b3", "NO"⟩,
        ⟨"macOS Sonoma 14.7.2", "14.7.2", "1KiB", "b4", "NO"⟩,
        ⟨"macOS Sequoia 15.0", "15.0", "1KiB", "b5", "NO"⟩].filter
        fun r => majorKey r.version == some 15)
      (InstallerRecord.mk "macOS Sequoia 15.0" "15.0" "1KiB" "b5" "NO") :=
  (reduce_latest_spec
      [⟨"macOS Ventura 13.6", "13.6", "1KiB", "b1", "NO"⟩,
       ⟨"macOS Ventura 13.7", "13.7", "1KiB", "b2", "NO"⟩,
       ⟨"macOS Sonoma 14.1", "14.1", "1KiB", "b3", "NO"⟩,
       ⟨"macOS Sonoma 14.7.2", "14.7.2", "1KiB", "b4", "NO"⟩,
       ⟨"macOS Sequoia 15.0", "15.0", "1KiB", "b5", "NO"⟩]).2.2.2.1
    (15, InstallerRecord.mk "macOS Sequoia 15.0" "15.0" "1KiB" "b5" "NO")
    (by decide)

/-- **C10.** A record whose version string's first dot-separated component
does not parse as an integer is dropped from the latest-only reduction
entirely, but the very same record is included in the non-reduced full
listing (sorted by full parsed version). -/
theorem unparseable_major_dropped_only_in_reduction
    (l : List InstallerRecord) (r : InstallerRecord)
    (h : majorKey r.version = none) (hmem : r ∈ l) :
    r ∉ reduce_latest l ∧ r ∈ sortFull l := by
  constructor
  · intro hr
    obtain ⟨p, hp, hpr⟩ := List.mem_map.mp hr
    have := keyedLatest_key_inv hp
    rw [hpr, h] at this
    cases this
  · exact mem_sortFull_aux l [] r (Or.inr hmem)

/-- **C10 witness.** The record with version `"beta.1"` (first component
not an integer) is dropped by the reduction but kept by the full listing. -/
theorem unparseable_major_dropped_witness :
    (InstallerRecord.mk "macOS Beta" "beta.1" "1KiB" "b0" "NO") ∉
      reduce_latest
        [⟨"macOS Beta", "beta.1", "1KiB", "b0", "NO"⟩,
         ⟨"macOS Sequoia 15.0", "15.0", "1KiB", "b5", "NO"⟩] ∧
    (InstallerRecord.mk "macOS Beta" "beta.1" "1KiB" "b0" "NO") ∈
      sortFull
        [⟨"macOS Beta", "beta.1", "1KiB", "b0", "NO"⟩,
         ⟨"macOS Sequoia 15.0", "15.0", "1KiB", "b5", "NO"⟩] :=
  unparseable_major_dropped_only_in_reduction
    [⟨"macOS Beta", "beta.1", "1KiB", "b0", "NO"⟩,
     ⟨"macOS Sequoia 15.0", "15.0", "1KiB", "b5", "NO"⟩]
    (InstallerRecord.mk "macOS Beta" "beta.1" "1KiB" "b0" "NO")
    (by decide) (by decide)

end ListInstallers

end SoftwareUpdate
